import Mathlib

/-!
Shallow embedding of `scripts/export_prices_rds.py`.

The script exports intraday price bars for a universe of securities into
nine row-oriented text artifacts (`A` … `I`).  We embed the parts the
specification talks about: session-window resolution (`SESSION_HOURS_NY`),
the session filter applied inside `read_price_bars` / `read_flat_bars`,
gap auditing (`check_long_gaps`), the per-security main loop with its
skip logic and `first_G` snapshot flag, and the membership emission loop
that writes artifact `C`.

Modelling conventions:
* A UTC/NY instant is an integer (minutes since the epoch).  A bar
  additionally carries its New-York local minute-of-day, standing for the
  `tz_convert("America/New_York")` step done by the external pandas
  collaborator; the filter in the source only reads `hour*60 + minute` of
  the converted timestamp.
* Prices are carried opaquely as integers: no modelled operation computes
  with a price, it is only moved into output rows.
* The database reads are the external collaborator boundary: a
  `fetch : Int → SecData` function supplies, per security id, the ordered
  raw and flat bar rows that `pd.read_sql` would return.
* File writes become list-valued artifact fields; `sys.exit` becomes
  `Except.error` (in Python, `sys.exit(str)` prints the message to stderr
  and exits with status 1, a non-zero exit signal).
-/

/-- Mirror of Python `datetime.time(hour, minute)` as stored in
`SESSION_HOURS_NY`. -/
structure TimeOfDay where
  hour : Nat
  minute : Nat
deriving DecidableEq, Repr

/-- The closed enumeration of session tags the CLI accepts
(`--session`, choices `US`, `EU`, `EUUS`, `ALL`). -/
inductive Session where
  | US
  | EU
  | EUUS
  | ALL
deriving DecidableEq, Repr

/-- The `SESSION_HOURS_NY` table from the script: session boundaries defined
in New York time. -/
def SESSION_HOURS_NY : Session → TimeOfDay × TimeOfDay
  | Session.US => (⟨9, 30⟩, ⟨15, 59⟩)
  | Session.EU => (⟨2, 0⟩, ⟨8, 59⟩)
  | Session.EUUS => (⟨2, 0⟩, ⟨11, 59⟩)
  | Session.ALL => (⟨2, 0⟩, ⟨15, 59⟩)

/-- One bar row as it looks after `pd.read_sql` plus the timezone
conversion: `ts` is the instant (the model of the `timestamp` column) and
`nyMinutes` is `hour*60 + minute` of the New-York local wall-clock time of
that instant. -/
structure Bar where
  ts : Int
  nyMinutes : Nat
  close : Int
deriving DecidableEq, Repr

/-- Lower session bound `lo = start.hour * 60 + start.minute` as computed in
`read_price_bars` / `read_flat_bars`. -/
def sessionLo (s : Session) : Nat :=
  (SESSION_HOURS_NY s).1.hour * 60 + (SESSION_HOURS_NY s).1.minute

/-- Upper session bound `hi = end.hour * 60 + end.minute` as computed in
`read_price_bars` / `read_flat_bars`. -/
def sessionHi (s : Session) : Nat :=
  (SESSION_HOURS_NY s).2.hour * 60 + (SESSION_HOURS_NY s).2.minute

/-- The session mask `minutes.between(lo, hi)` (pandas `between` is
inclusive on both ends) followed by `df[mask]`: keep exactly the rows whose
NY local minute-of-day lies in `[lo, hi]`. -/
def sessionFilter (s : Session) (rows : List Bar) : List Bar :=
  rows.filter fun b =>
    decide (sessionLo s ≤ b.nyMinutes) && decide (b.nyMinutes ≤ sessionHi s)

/-- Model of `days.diff()` over consecutive entries and the report loop of
`check_long_gaps`: for each adjacent pair of (sorted, distinct) day
numbers whose difference is strictly greater than `limit`, report
`(previous day, current day, difference)`. -/
def consecGaps (limit : Int) : List Int → List (Int × Int × Int)
  | [] => []
  | [_] => []
  | a :: b :: rest =>
    (if b - a > limit then [(a, b, b - a)] else []) ++ consecGaps limit (b :: rest)

/-- pandas `drop_duplicates()` / `unique()`: keep the first occurrence of
each value, preserving order. -/
def dropDuplicates : List Int → List Int :=
  go []
where
  /-- Auxiliary recursion carrying the values already seen. -/
  go (seen : List Int) : List Int → List Int
    | [] => []
    | x :: xs => if x ∈ seen then go seen xs else x :: go (x :: seen) xs

/-- pandas `sort_values()` ascending, modelled as Mathlib's insertion
sort. -/
def sortAsc (l : List Int) : List Int :=
  l.insertionSort (· ≤ ·)

/-- Model of `pd.to_datetime(ts).dt.normalize()` on an instant measured in minutes:
drop the time of day, i.e. floor to the calendar day number. -/
def normalizeDay (t : Int) : Int :=
  t.fdiv 1440

/-- Gap auditor `check_long_gaps(ts, limit_days)`: normalize each timestamp to its
calendar day, drop duplicates, sort ascending, and report every adjacent
pair strictly more than `limit_days` days apart.  The Python function
prints the reports; we return them as the diagnostics channel. -/
def check_long_gaps (ts : List Int) (limit_days : Int) : List (Int × Int × Int) :=
  consecGaps limit_days (sortAsc (dropDuplicates (ts.map normalizeDay)))

/-- One output row `(securityId, timestamp, price)` as produced by
`frame`. -/
def frame (sec_id : Int) (rows : List Bar) : List (Int × Int × Int) :=
  rows.map fun b => (sec_id, b.ts, b.close)

/-- One `UniverseMember` row: `SecurityId`, `EffectiveFromUtc`, and the
possibly-null `EffectiveToUtc` (`None` models SQL NULL, which
`pd.to_datetime(..., errors="coerce")` turns into `NaT`). -/
structure MemberRow where
  SecurityId : Int
  EffectiveFromUtc : Int
  EffectiveToUtc : Option Int
deriving DecidableEq, Repr

/-- Model of `pd.Timestamp.max.tz_localize("UTC")`: the maximal
representable instant, used as the sentinel end for unbounded membership
intervals. -/
def TS_MAX : Int := 9223372036854775807

/-- Resolution of a null effective-to: per
`end = pd.Timestamp.max ... if pd.isna(end)`, it resolves to the maximal sentinel instant. -/
def resolveEnd (e : Option Int) : Int :=
  e.getD TS_MAX

/-- Model of `membership_by_real_sid.setdefault(sid, []).append(iv)` on an
insertion-ordered association list (Python dicts preserve insertion
order): append `iv` to the existing entry for `sid`, or add a new entry at
the end. -/
def insertMembership (acc : List (Int × List (Int × Int))) (sid : Int)
    (iv : Int × Int) : List (Int × List (Int × Int)) :=
  match acc with
  | [] => [(sid, [iv])]
  | (s, ivs) :: rest =>
    if s = sid then (s, ivs ++ [iv]) :: rest
    else (s, ivs) :: insertMembership rest sid iv

/-- The `membership_by_real_sid` build loop: fold the membership rows,
resolving a null end to the `TS_MAX` sentinel. -/
def membership_by_real_sid (rows : List MemberRow) :
    List (Int × List (Int × Int)) :=
  rows.foldl
    (fun acc r =>
      insertMembership acc r.SecurityId (r.EffectiveFromUtc, resolveEnd r.EffectiveToUtc))
    []

/-- Lookup of a security's interval list in the membership map (`[]` when
the security has no entry). -/
def intervalsOf (m : List (Int × List (Int × Int))) (sid : Int) :
    List (Int × Int) :=
  match m with
  | [] => []
  | (s, ivs) :: rest => if s = sid then ivs else intervalsOf rest sid

/-- The innermost loop of the artifact-`C` writer: scan one security's
interval list; at the first interval with `start <= t <= end` write the
row `(sid, t)` and `break`. -/
def scanIntervals (sid t : Int) : List (Int × Int) → List (Int × Int)
  | [] => []
  | (s, e) :: rest =>
    if s ≤ t ∧ t ≤ e then [(sid, t)] else scanIntervals sid t rest

/-- The middle loop of the artifact-`C` writer: for one global timestamp,
visit every security of the membership map in insertion order. -/
def emitAt (t : Int) : List (Int × List (Int × Int)) → List (Int × Int)
  | [] => []
  | (sid, ivs) :: rest => scanIntervals sid t ivs ++ emitAt t rest

/-- The artifact-`C` writer: for each global timestamp in order, emit the
membership rows of that timestamp. -/
def writeC (ts : List Int) (m : List (Int × List (Int × Int))) :
    List (Int × Int) :=
  match ts with
  | [] => []
  | t :: rest => emitAt t m ++ writeC rest m

/-- Python `set.add` semantics on a duplicate-free list: insert `x` unless
already present. -/
def setInsert (s : List Int) (x : Int) : List Int :=
  if x ∈ s then s else s ++ [x]

/-- The raw and flat bar rows the database returns for one security (the
external collaborator boundary). -/
structure SecData where
  rawBars : List Bar
  flatBars : List Bar
deriving Repr

/-- The mutable state of the main loop: the global timestamp set
`all_ts`, the `first_G` flag, the appended artifact rows, and the skip
log lines. -/
structure RunState where
  all_ts : List Int
  first_G : Bool
  A : List (Int × Int × Int)
  H : List (Int × Int × Int)
  I : List (Int × Int × Int)
  G : List (Int × Int × Int)
  logs : List String
deriving Repr

/-- The skip log line: `Skipping <real_sid>: no raw bars` or
`Skipping <real_sid>: no flat bars`. -/
def skipMsg (sid : Int) (raw : Bool) : String :=
  "Skipping " ++ toString sid ++ (if raw then ": no raw bars" else ": no flat bars")

/-- One iteration of the main `for real_sid in universe_ids` loop:
session-filter the raw bars, skip (log only) if empty; session-filter the
flat bars, skip if empty; otherwise register the raw timestamps in
`all_ts`, append the flattened frame to `A`, the raw frame to `H` and
`I`, and, when `first_G` is still set, write the raw frame to the
one-shot snapshot `G` and clear the flag. -/
def processSecurity (session : Session) (fetch : Int → SecData)
    (st : RunState) (real_sid : Int) : RunState :=
  let df_raw := sessionFilter session (fetch real_sid).rawBars
  if df_raw.isEmpty then
    { st with logs := st.logs ++ [skipMsg real_sid true] }
  else
    let df_flat := sessionFilter session (fetch real_sid).flatBars
    if df_flat.isEmpty then
      { st with logs := st.logs ++ [skipMsg real_sid false] }
    else
      { all_ts := (df_raw.map Bar.ts).foldl setInsert st.all_ts
        first_G := false
        A := st.A ++ frame real_sid df_flat
        H := st.H ++ frame real_sid df_raw
        I := st.I ++ frame real_sid df_raw
        G := if st.first_G then frame real_sid df_raw else st.G
        logs := st.logs }

/-- Model of `universe_ids = members_df["SecurityId"].unique().tolist()`:
first-occurrence-ordered distinct security ids. -/
def universeOf (members : List MemberRow) : List Int :=
  dropDuplicates (members.map MemberRow.SecurityId)

/-- The initial `RunState`: `all_ts = set()`, `first_G = True`, all
artifacts empty. -/
def initState : RunState :=
  { all_ts := [], first_G := true, A := [], H := [], I := [], G := [], logs := [] }

/-- The nine output artifacts (as row lists) plus the skip log. -/
structure Artifacts where
  A : List (Int × Int × Int)
  B : List Int
  C : List (Int × Int)
  D : List Int
  E : List Int
  F : List (Int × Int)
  G : List (Int × Int × Int)
  H : List (Int × Int × Int)
  I : List (Int × Int × Int)
  logs : List String
deriving Repr

/-- The artifact set a non-aborted run produces: run the main loop over
the securities in order, then assemble the `B` roster, the `D` sorted
timestamp list, the `C` membership rows and the `E`/`F` sub-universe
data next to the per-security `A`/`G`/`H`/`I` rows. -/
def exportArtifacts (session : Session) (members : List MemberRow)
    (subIds : List Int) (subMembers : List (Int × Int))
    (fetch : Int → SecData) : Artifacts :=
  let universe_ids := universeOf members
  let final := universe_ids.foldl (processSecurity session fetch) initState
  let ts_sorted := sortAsc final.all_ts
  { A := final.A
    B := universe_ids
    C := writeC ts_sorted (membership_by_real_sid members)
    D := ts_sorted
    E := subIds
    F := subMembers
    G := final.G
    H := final.H
    I := final.I
    logs := final.logs }

/-- The whole export run: resolve the universe, abort with
`sys.exit("No securities selected")` when it is empty (after resolving
the security set but before any artifact row is written), otherwise emit
the full artifact set. -/
def runExport (session : Session) (members : List MemberRow)
    (subIds : List Int) (subMembers : List (Int × Int))
    (fetch : Int → SecData) : Except String Artifacts :=
  if (universeOf members).isEmpty then
    Except.error "No securities selected"
  else
    Except.ok (exportArtifacts session members subIds subMembers fetch)

/-- Projection used to state closed counterexamples: the artifacts of a
successful run (an aborted run has every artifact empty, matching "writes
no artifacts"). -/
def artifactsOf : Except String Artifacts → Artifacts
  | Except.ok a => a
  | Except.error _ =>
    { A := [], B := [], C := [], D := [], E := [], F := [], G := [], H := [], I := [], logs := [] }

/-- The key list (security ids, in insertion order) of the membership
map. -/
def memKeys (m : List (Int × List (Int × Int))) : List Int :=
  m.map Prod.fst

/-- A security is eligible (not skipped) when both its session-filtered
raw series and its session-filtered flat series are non-empty. -/
def eligibleB (session : Session) (fetch : Int → SecData) (sid : Int) : Bool :=
  !(sessionFilter session (fetch sid).rawBars).isEmpty &&
    !(sessionFilter session (fetch sid).flatBars).isEmpty

/-- The raw rows the main loop appends to artifacts `H` and `I` while
processing a list of securities: one raw frame per eligible security, in
processing order. -/
def newRows (session : Session) (fetch : Int → SecData) : List Int → List (Int × Int × Int)
  | [] => []
  | s :: l =>
    (if eligibleB session fetch s then frame s (sessionFilter session (fetch s).rawBars) else [])
      ++ newRows session fetch l

/-- The ordering property claimed for artifact `C`: timestamp-major
ascending, security-minor ascending within one timestamp. -/
def tsMajorSidMinor (rows : List (Int × Int)) : Prop :=
  rows.Pairwise fun p q => p.2 < q.2 ∨ (p.2 = q.2 ∧ p.1 ≤ q.1)

/-! ### Basic lemmas about the embedded operations -/

/-- Characterization of membership in the session filter output. -/
theorem mem_sessionFilter {s : Session} {rows : List Bar} {b : Bar} :
    b ∈ sessionFilter s rows ↔
      b ∈ rows ∧ sessionLo s ≤ b.nyMinutes ∧ b.nyMinutes ≤ sessionHi s := by
  simp [sessionFilter, List.mem_filter]

/-- Membership in a `setInsert`. -/
theorem mem_setInsert {s : List Int} {x t : Int} :
    t ∈ setInsert s x ↔ t ∈ s ∨ t = x := by
  unfold setInsert
  split
  · constructor
    · exact Or.inl
    · rintro (h | rfl) <;> assumption
  · simp

/-- Membership after folding `setInsert` over a list. -/
theorem mem_foldl_setInsert {xs : List Int} {s : List Int} {t : Int}
    (h : t ∈ xs.foldl setInsert s) : t ∈ s ∨ t ∈ xs := by
  induction xs generalizing s with
  | nil => exact Or.inl h
  | cons x xs ih =>
    rcases ih (s := setInsert s x) h with h' | h'
    · rcases mem_setInsert.mp h' with h'' | rfl
      · exact Or.inl h''
      · exact Or.inr (List.mem_cons_self _ _)
    · exact Or.inr (List.mem_cons_of_mem _ h')

/-- `setInsert` preserves duplicate-freedom. -/
theorem nodup_setInsert {s : List Int} {x : Int} (h : s.Nodup) :
    (setInsert s x).Nodup := by
  unfold setInsert
  split
  · exact h
  · rename_i hx
    simpa [List.nodup_append, hx] using h

/-- Folding `setInsert` preserves duplicate-freedom. -/
theorem nodup_foldl_setInsert {xs : List Int} {s : List Int} (h : s.Nodup) :
    (xs.foldl setInsert s).Nodup := by
  induction xs generalizing s with
  | nil => exact h
  | cons x xs ih => exact ih (nodup_setInsert h)

/-- Sorting does not change membership. -/
theorem mem_sortAsc {l : List Int} {t : Int} : t ∈ sortAsc l ↔ t ∈ l :=
  (List.perm_insertionSort (· ≤ ·) l).mem_iff

/-- Sorting preserves duplicate-freedom. -/
theorem nodup_sortAsc {l : List Int} (h : l.Nodup) : (sortAsc l).Nodup :=
  ((List.perm_insertionSort (· ≤ ·) l).nodup_iff).mpr h

/-- The output of `sortAsc` is sorted (non-decreasing). -/
theorem pairwise_sortAsc (l : List Int) : (sortAsc l).Pairwise (· ≤ ·) :=
  List.sorted_insertionSort (· ≤ ·) l

/-- The result of `dropDuplicates.go` avoids everything already seen. -/
theorem dropDuplicates_go_not_mem_seen {l seen : List Int} {x : Int}
    (hx : x ∈ dropDuplicates.go seen l) : x ∉ seen := by
  induction l generalizing seen with
  | nil => simp [dropDuplicates.go] at hx
  | cons y ys ih =>
    by_cases hy : y ∈ seen
    · rw [dropDuplicates.go, if_pos hy] at hx
      exact ih hx
    · rw [dropDuplicates.go, if_neg hy] at hx
      rcases List.mem_cons.mp hx with rfl | hx'
      · exact hy
      · intro hs
        exact ih hx' (List.mem_cons_of_mem _ hs)

/-- The result of `dropDuplicates.go` is duplicate-free. -/
theorem dropDuplicates_go_nodup (l : List Int) (seen : List Int) :
    (dropDuplicates.go seen l).Nodup := by
  induction l generalizing seen with
  | nil => simp [dropDuplicates.go]
  | cons y ys ih =>
    by_cases hy : y ∈ seen
    · rw [dropDuplicates.go, if_pos hy]
      exact ih seen
    · rw [dropDuplicates.go, if_neg hy]
      refine List.nodup_cons.mpr ⟨?_, ih (y :: seen)⟩
      intro hmem
      exact dropDuplicates_go_not_mem_seen hmem (List.mem_cons_self _ _)

/-- `dropDuplicates` returns a duplicate-free list. -/
theorem nodup_dropDuplicates (l : List Int) : (dropDuplicates l).Nodup :=
  dropDuplicates_go_nodup l []

/-- The resolved universe id list is duplicate-free. -/
theorem nodup_universeOf (members : List MemberRow) :
    (universeOf members).Nodup :=
  nodup_dropDuplicates _

/-- Inversion of a successful run. -/
theorem runExport_ok {session : Session} {members : List MemberRow}
    {subIds : List Int} {subMembers : List (Int × Int)}
    {fetch : Int → SecData} {out : Artifacts}
    (h : runExport session members subIds subMembers fetch = Except.ok out) :
    (universeOf members).isEmpty = false ∧
      out = exportArtifacts session members subIds subMembers fetch := by
  unfold runExport at h
  split at h
  · exact absurd h (by simp)
  · rename_i hne
    exact ⟨Bool.eq_false_iff.mpr hne, (Except.ok.injEq _ _).mp h.symm⟩

/-- Case analysis of the main-loop body: the raw series is empty after
filtering, so the security is skipped with a log line. -/
theorem processSecurity_raw_empty {session : Session} {fetch : Int → SecData}
    {st : RunState} {sid : Int}
    (h : sessionFilter session (fetch sid).rawBars = []) :
    processSecurity session fetch st sid =
      { st with logs := st.logs ++ [skipMsg sid true] } := by
  simp [processSecurity, h]

/-- Case analysis of the main-loop body: the raw series is non-empty but
the flat series is empty after filtering, so the security is skipped with
a log line. -/
theorem processSecurity_flat_empty {session : Session} {fetch : Int → SecData}
    {st : RunState} {sid : Int}
    (h1 : sessionFilter session (fetch sid).rawBars ≠ [])
    (h2 : sessionFilter session (fetch sid).flatBars = []) :
    processSecurity session fetch st sid =
      { st with logs := st.logs ++ [skipMsg sid false] } := by
  simp [processSecurity, h1, h2]

/-- Case analysis of the main-loop body: both series are non-empty, so the
security is written out. -/
theorem processSecurity_write {session : Session} {fetch : Int → SecData}
    {st : RunState} {sid : Int}
    (h1 : sessionFilter session (fetch sid).rawBars ≠ [])
    (h2 : sessionFilter session (fetch sid).flatBars ≠ []) :
    processSecurity session fetch st sid =
      { all_ts := ((sessionFilter session (fetch sid).rawBars).map Bar.ts).foldl setInsert st.all_ts
        first_G := false
        A := st.A ++ frame sid (sessionFilter session (fetch sid).flatBars)
        H := st.H ++ frame sid (sessionFilter session (fetch sid).rawBars)
        I := st.I ++ frame sid (sessionFilter session (fetch sid).rawBars)
        G := if st.first_G then frame sid (sessionFilter session (fetch sid).rawBars) else st.G
        logs := st.logs } := by
  simp [processSecurity, h1, h2]

/-! ### Claim C1: the session window of the tag ALL -/

/-- C1 counterexample: the script resolves the session tag `ALL` to the
New-York window 02:00–15:59, not to 00:00–23:59, and the `ALL` filter is
not a no-op: a bar whose NY local time is 00:00 is dropped. -/
theorem session_all_not_full_day :
    SESSION_HOURS_NY Session.ALL ≠ (⟨0, 0⟩, ⟨23, 59⟩) ∧
      sessionFilter Session.ALL [⟨0, 0, 100⟩] = [] := by
  decide

/-- C1 amended: `ALL` resolves to the inclusive NY window 02:00–15:59
(the union span of the EU and US sessions), and the `ALL` filter keeps
exactly the bars whose NY local minute-of-day lies in `[120, 959]`. -/
theorem session_all_bounds :
    SESSION_HOURS_NY Session.ALL = (⟨2, 0⟩, ⟨15, 59⟩) ∧
      ∀ (rows : List Bar) (b : Bar),
        b ∈ sessionFilter Session.ALL rows ↔
          b ∈ rows ∧ 120 ≤ b.nyMinutes ∧ b.nyMinutes ≤ 959 := by
  refine ⟨rfl, fun rows b => ?_⟩
  simpa [sessionLo, sessionHi, SESSION_HOURS_NY] using
    (@mem_sessionFilter Session.ALL rows b)

/-- C1 witness: a bar at NY minute 500 inside a singleton list is kept by
the `ALL` filter. -/
theorem session_all_bounds_witness :
    Bar.mk 0 500 7 ∈ sessionFilter Session.ALL [Bar.mk 0 500 7] :=
  ((session_all_bounds.2 [Bar.mk 0 500 7] (Bar.mk 0 500 7)).mpr (by decide))

/-! ### Claim C8: an empty universe aborts the run -/

/-- C8: when the resolved security universe is empty the run aborts with
the user-facing error of `sys.exit("No securities selected")` (a
non-zero exit signal in Python) and produces no artifacts. -/
theorem empty_universe_aborts (session : Session) (members : List MemberRow)
    (subIds : List Int) (subMembers : List (Int × Int)) (fetch : Int → SecData)
    (h : universeOf members = []) :
    runExport session members subIds subMembers fetch =
      Except.error "No securities selected" := by
  simp [runExport, h]

/-- C8 witness: a concrete run over an empty membership table aborts. -/
theorem empty_universe_aborts_witness :
    runExport Session.US [] [] [] (fun _ => ⟨[], []⟩) =
      Except.error "No securities selected" :=
  empty_universe_aborts Session.US [] [] [] (fun _ => ⟨[], []⟩) rfl

/-! ### Claim C6: the roster artifact -/

/-- C6: a successful run emits as artifact `B` exactly the full
first-occurrence-ordered list of distinct security identifiers of the
universe — including securities later skipped for lack of data. -/
theorem roster_is_universe (session : Session) (members : List MemberRow)
    (subIds : List Int) (subMembers : List (Int × Int)) (fetch : Int → SecData)
    (out : Artifacts)
    (h : runExport session members subIds subMembers fetch = Except.ok out) :
    out.B = universeOf members := by
  rw [(runExport_ok h).2]
  rfl

/-- C6 witness: the end-to-end example with two securities of which the
second has no bars at all still yields a roster of exactly 2 entries. -/
theorem roster_is_universe_witness :
    (artifactsOf (runExport Session.ALL
        [⟨1, 0, some 10⟩, ⟨2, 0, some 10⟩] [] []
        (fun sid => if sid = 1 then ⟨[⟨0, 120, 100⟩], [⟨0, 120, 100⟩]⟩ else ⟨[], []⟩))).B
      = [1, 2] := by
  have h : runExport Session.ALL
      [⟨1, 0, some 10⟩, ⟨2, 0, some 10⟩] [] []
      (fun sid => if sid = 1 then ⟨[⟨0, 120, 100⟩], [⟨0, 120, 100⟩]⟩ else ⟨[], []⟩)
      = Except.ok (artifactsOf (runExport Session.ALL
        [⟨1, 0, some 10⟩, ⟨2, 0, some 10⟩] [] []
        (fun sid => if sid = 1 then ⟨[⟨0, 120, 100⟩], [⟨0, 120, 100⟩]⟩ else ⟨[], []⟩))) := rfl
  rw [roster_is_universe _ _ _ _ _ _ h]
  decide

/-! ### Claim C2: session bounds of every registered timestamp -/

/-- Origin of the global timestamp set: every timestamp accumulated by the
main loop either was there before or is the timestamp of some
session-filtered raw bar of a processed security. -/
theorem all_ts_origin {session : Session} {fetch : Int → SecData} :
    ∀ (l : List Int) (st : RunState) (t : Int),
      t ∈ (l.foldl (processSecurity session fetch) st).all_ts →
      t ∈ st.all_ts ∨
        ∃ sid ∈ l, ∃ b ∈ sessionFilter session (fetch sid).rawBars, b.ts = t := by
  intro l
  induction l with
  | nil => exact fun st t h => Or.inl h
  | cons a l ih =>
    intro st t h
    rw [List.foldl_cons] at h
    rcases ih (processSecurity session fetch st a) t h with h' | ⟨sid, hsid, b, hb, rfl⟩
    · by_cases h1 : sessionFilter session (fetch a).rawBars = []
      · rw [processSecurity_raw_empty h1] at h'
        exact Or.inl h'
      · by_cases h2 : sessionFilter session (fetch a).flatBars = []
        · rw [processSecurity_flat_empty h1 h2] at h'
          exact Or.inl h'
        · rw [processSecurity_write h1 h2] at h'
          rcases mem_foldl_setInsert h' with h'' | h''
          · exact Or.inl h''
          · rcases List.mem_map.mp h'' with ⟨b, hb, rfl⟩
            exact Or.inr ⟨a, List.mem_cons_self _ _, b, hb, rfl⟩
    · exact Or.inr ⟨sid, List.mem_cons_of_mem _ hsid, b, hb, rfl⟩

/-- C2: every row kept by the session filter has its NY local
minute-of-day inside the inclusive resolved bounds, and every timestamp
of the emitted global timestamp list originates from a session-filtered
raw bar of some universe security — hence lies inside the bounds. -/
theorem registered_timestamps_in_session :
    (∀ (s : Session) (rows : List Bar) (b : Bar),
        b ∈ sessionFilter s rows →
        sessionLo s ≤ b.nyMinutes ∧ b.nyMinutes ≤ sessionHi s) ∧
      ∀ (session : Session) (members : List MemberRow) (subIds : List Int)
        (subMembers : List (Int × Int)) (fetch : Int → SecData)
        (out : Artifacts) (t : Int),
        runExport session members subIds subMembers fetch = Except.ok out →
        t ∈ out.D →
        ∃ sid ∈ out.B, ∃ b ∈ sessionFilter session (fetch sid).rawBars,
          b.ts = t ∧ sessionLo session ≤ b.nyMinutes ∧
            b.nyMinutes ≤ sessionHi session := by
  constructor
  · intro s rows b hb
    exact (mem_sessionFilter.mp hb).2
  · intro session members subIds subMembers fetch out t hok ht
    rw [(runExport_ok hok).2] at ht ⊢
    have ht' : t ∈ ((universeOf members).foldl (processSecurity session fetch) initState).all_ts := by
      simpa [exportArtifacts, mem_sortAsc] using ht
    rcases all_ts_origin _ _ _ ht' with h | ⟨sid, hsid, b, hb, rfl⟩
    · simp [initState] at h
    · exact ⟨sid, by simpa [exportArtifacts] using hsid, b, hb, rfl,
        (mem_sessionFilter.mp hb).2⟩

/-- C2 witness: in a one-security run with a single in-session bar at
instant 0 (NY minute 500), the timestamp 0 of the emitted list indeed
comes from an in-bounds filtered raw bar. -/
theorem registered_timestamps_in_session_witness :
    ∃ sid ∈ (artifactsOf (runExport Session.EUUS [⟨1, 0, none⟩] [] []
        (fun _ => ⟨[⟨0, 500, 9⟩], [⟨0, 500, 9⟩]⟩))).B,
      ∃ b ∈ sessionFilter Session.EUUS ((fun _ => (⟨[⟨0, 500, 9⟩], [⟨0, 500, 9⟩]⟩ : SecData)) sid).rawBars,
        b.ts = 0 ∧ sessionLo Session.EUUS ≤ b.nyMinutes ∧
          b.nyMinutes ≤ sessionHi Session.EUUS := by
  have h : runExport Session.EUUS [⟨1, 0, none⟩] [] []
      (fun _ => ⟨[⟨0, 500, 9⟩], [⟨0, 500, 9⟩]⟩)
      = Except.ok (artifactsOf (runExport Session.EUUS [⟨1, 0, none⟩] [] []
        (fun _ => ⟨[⟨0, 500, 9⟩], [⟨0, 500, 9⟩]⟩))) := rfl
  exact registered_timestamps_in_session.2 Session.EUUS [⟨1, 0, none⟩] [] []
    (fun _ => ⟨[⟨0, 500, 9⟩], [⟨0, 500, 9⟩]⟩) _ 0 h (by decide)

/-! ### Claim C5: skipped securities -/

/-- C5 counterexample: in a run where security 1 has no raw bars (and is
therefore skipped and logged), the membership artifact `C` still contains
a row for security 1 (its membership interval covers a timestamp supplied
by security 2) and the roster artifact `B` still lists security 1 — so a
skipped security does contribute rows to output artifacts. -/
theorem skipped_security_counterexample :
    sessionFilter Session.ALL
        ((fun sid => if sid = (1 : Int) then (⟨[], []⟩ : SecData)
          else ⟨[⟨0, 120, 100⟩], [⟨0, 120, 100⟩]⟩) 1).rawBars = [] ∧
      ((1 : Int), (0 : Int)) ∈ (artifactsOf (runExport Session.ALL
        [⟨1, 0, some 10⟩, ⟨2, 0, some 10⟩] [] []
        (fun sid => if sid = 1 then ⟨[], []⟩
          else ⟨[⟨0, 120, 100⟩], [⟨0, 120, 100⟩]⟩))).C ∧
      (1 : Int) ∈ (artifactsOf (runExport Session.ALL
        [⟨1, 0, some 10⟩, ⟨2, 0, some 10⟩] [] []
        (fun sid => if sid = 1 then ⟨[], []⟩
          else ⟨[⟨0, 120, 100⟩], [⟨0, 120, 100⟩]⟩))).B ∧
      "Skipping 1: no raw bars" ∈ (artifactsOf (runExport Session.ALL
        [⟨1, 0, some 10⟩, ⟨2, 0, some 10⟩] [] []
        (fun sid => if sid = 1 then ⟨[], []⟩
          else ⟨[⟨0, 120, 100⟩], [⟨0, 120, 100⟩]⟩))).logs := by
  decide

/-- C5 amended: a security whose raw or pre-flattened series is empty
after session filtering is skipped with exactly one log line and changes
nothing else in the run state — it contributes no rows to the
per-security price artifacts `A`/`H`/`I`/`G` and no timestamps to the
global timestamp set (though it still appears in the roster and may still
receive membership rows) — and the run continues rather than aborting:
whenever the universe is non-empty the run returns a successful artifact
set. -/
theorem skipped_security_only_logs :
    (∀ (session : Session) (fetch : Int → SecData) (st : RunState) (sid : Int),
        (sessionFilter session (fetch sid).rawBars = [] ∨
          sessionFilter session (fetch sid).flatBars = []) →
        processSecurity session fetch st sid =
          { st with logs := st.logs ++
              [skipMsg sid (sessionFilter session (fetch sid).rawBars).isEmpty] }) ∧
      ∀ (session : Session) (members : List MemberRow) (subIds : List Int)
        (subMembers : List (Int × Int)) (fetch : Int → SecData),
        universeOf members ≠ [] →
        ∃ out, runExport session members subIds subMembers fetch = Except.ok out := by
  constructor
  · intro session fetch st sid h
    by_cases h1 : sessionFilter session (fetch sid).rawBars = []
    · rw [processSecurity_raw_empty h1, h1]
      rfl
    · have h2 : sessionFilter session (fetch sid).flatBars = [] := h.resolve_left h1
      rw [processSecurity_flat_empty h1 h2]
      cases hr : sessionFilter session (fetch sid).rawBars with
      | nil => exact absurd hr h1
      | cons a l => rfl
  · intro session members subIds subMembers fetch hne
    refine ⟨exportArtifacts session members subIds subMembers fetch, ?_⟩
    simp [runExport, hne]

/-- C5 witness: the skip of security 1 (no raw bars) only appends the log
line, and the surrounding two-security run still succeeds. -/
theorem skipped_security_only_logs_witness :
    processSecurity Session.ALL
        (fun sid => if sid = (1 : Int) then (⟨[], []⟩ : SecData)
          else ⟨[⟨0, 120, 100⟩], [⟨0, 120, 100⟩]⟩) initState 1 =
      { initState with logs := ["Skipping 1: no raw bars"] } ∧
      ∃ out, runExport Session.ALL [⟨1, 0, some 10⟩, ⟨2, 0, some 10⟩] [] []
        (fun sid => if sid = 1 then ⟨[], []⟩
          else ⟨[⟨0, 120, 100⟩], [⟨0, 120, 100⟩]⟩) = Except.ok out := by
  constructor
  · have h := skipped_security_only_logs.1 Session.ALL
      (fun sid => if sid = (1 : Int) then (⟨[], []⟩ : SecData)
        else ⟨[⟨0, 120, 100⟩], [⟨0, 120, 100⟩]⟩) initState 1 (Or.inl rfl)
    simpa [initState] using h
  · exact skipped_security_only_logs.2 Session.ALL
      [⟨1, 0, some 10⟩, ⟨2, 0, some 10⟩] [] []
      (fun sid => if sid = 1 then ⟨[], []⟩
        else ⟨[⟨0, 120, 100⟩], [⟨0, 120, 100⟩]⟩) (by decide)

/-! ### Claim C9: gap auditing -/

/-- Adjacent positions in a cons: either the pair sits at the head, or it
sits (shifted) in the tail. -/
theorem adjacent_cons {a : Int} {l : List Int} {x y : Int} :
    (∃ i : Nat, (a :: l)[i]? = some x ∧ (a :: l)[i + 1]? = some y) ↔
      ((a = x ∧ l[0]? = some y) ∨
        ∃ i : Nat, l[i]? = some x ∧ l[i + 1]? = some y) := by
  constructor
  · rintro ⟨i, h1, h2⟩
    cases i with
    | zero =>
      left
      refine ⟨by simpa using h1, by simpa using h2⟩
    | succ j =>
      right
      exact ⟨j, by simpa using h1, by simpa using h2⟩
  · rintro (⟨rfl, h⟩ | ⟨i, h1, h2⟩)
    · exact ⟨0, by simp, by simpa using h⟩
    · exact ⟨i + 1, by simpa using h1, by simpa using h2⟩

/-- Membership characterization of the consecutive-difference report
list: a report is produced exactly for each adjacent pair of the day list
whose difference strictly exceeds the threshold, carrying the previous
day, the current day, and the difference. -/
theorem mem_consecGaps {limit : Int} {l : List Int} {g1 g2 g3 : Int} :
    (g1, g2, g3) ∈ consecGaps limit l ↔
      (∃ i : Nat, l[i]? = some g1 ∧ l[i + 1]? = some g2) ∧
        g3 = g2 - g1 ∧ g2 - g1 > limit := by
  induction l with
  | nil => simp [consecGaps]
  | cons a l ih =>
    cases l with
    | nil => simp [consecGaps]
    | cons b rest =>
      rw [consecGaps, List.mem_append, adjacent_cons, ih]
      by_cases hba : b - a > limit
      · simp only [if_pos hba, List.mem_singleton]
        constructor
        · rintro (h | ⟨hadj, h3, hgt⟩)
          · simp only [Prod.mk.injEq] at h
            obtain ⟨rfl, rfl, rfl⟩ := h
            exact ⟨Or.inl ⟨rfl, by simp⟩, rfl, hba⟩
          · exact ⟨Or.inr hadj, h3, hgt⟩
        · rintro ⟨hd | hadj, h3, hgt⟩
          · obtain ⟨rfl, hb⟩ := hd
            have hb' : b = g2 := by simpa using hb
            subst hb'
            subst h3
            exact Or.inl rfl
          · exact Or.inr ⟨hadj, h3, hgt⟩
      · simp only [if_neg hba, List.not_mem_nil, false_or]
        constructor
        · rintro ⟨hadj, h3, hgt⟩
          exact ⟨Or.inr hadj, h3, hgt⟩
        · rintro ⟨hd | hadj, h3, hgt⟩
          · obtain ⟨rfl, hb⟩ := hd
            have hb' : b = g2 := by simpa using hb
            subst hb'
            exact absurd hgt hba
          · exact ⟨hadj, h3, hgt⟩

/-- Fewer than two entries yield no consecutive pairs and hence no
reports. -/
theorem consecGaps_short {limit : Int} {l : List Int} (h : l.length < 2) :
    consecGaps limit l = [] := by
  match l, h with
  | [], _ => rfl
  | [a], _ => rfl
  | a :: b :: rest, h => simp at h; omega

/-- C9: gap auditing reports a gap exactly for each adjacent pair of the
deduplicated sorted day list whose day-difference strictly exceeds the
threshold, carrying previous day, current day and difference; fewer than
two distinct days yield no reports; and on the days 2024-01-01,
2024-01-02, 2024-01-10 (epoch day numbers 19723, 19724, 19732, given as
midnight instants in minutes) with threshold 5 it reports exactly the one
gap from 2024-01-02 to 2024-01-10 of 8 days. -/
theorem gap_audit_correct :
    (∀ (ts : List Int) (limit g1 g2 g3 : Int),
        (g1, g2, g3) ∈ check_long_gaps ts limit ↔
          ((∃ i : Nat,
              (sortAsc (dropDuplicates (ts.map normalizeDay)))[i]? = some g1 ∧
                (sortAsc (dropDuplicates (ts.map normalizeDay)))[i + 1]? = some g2) ∧
            g3 = g2 - g1 ∧ g2 - g1 > limit)) ∧
      (∀ (ts : List Int) (limit : Int),
          (dropDuplicates (ts.map normalizeDay)).length < 2 →
          check_long_gaps ts limit = []) ∧
      check_long_gaps [19723 * 1440, 19724 * 1440, 19732 * 1440] 5 =
        [(19724, 19732, 8)] := by
  refine ⟨fun ts limit g1 g2 g3 => mem_consecGaps, fun ts limit h => ?_, by decide⟩
  have hlen := (List.perm_insertionSort (· ≤ ·) (dropDuplicates (ts.map normalizeDay))).length_eq
  exact consecGaps_short (by unfold sortAsc at *; omega)

/-- C9 witness: a single-day input produces no gap reports. -/
theorem gap_audit_correct_witness : check_long_gaps [0] 5 = [] :=
  gap_audit_correct.2.1 [0] 5 (by decide)

/-! ### Claim C3: membership row emission -/

/-- Membership in the inner interval scan: it emits the single row
`(sid, t)` exactly when some interval of the list contains `t`
(inclusively on both ends). -/
theorem mem_scanIntervals {sid t : Int} {ivs : List (Int × Int)} {p : Int × Int} :
    p ∈ scanIntervals sid t ivs ↔
      p = (sid, t) ∧ ∃ iv ∈ ivs, iv.1 ≤ t ∧ t ≤ iv.2 := by
  induction ivs with
  | nil => simp [scanIntervals]
  | cons hd rest ih =>
    obtain ⟨s, e⟩ := hd
    rw [scanIntervals]
    split
    · rename_i hse
      simp only [List.mem_singleton]
      constructor
      · rintro rfl
        exact ⟨rfl, (s, e), List.mem_cons_self _ _, hse⟩
      · rintro ⟨rfl, _⟩
        rfl
    · rename_i hse
      rw [ih]
      constructor
      · rintro ⟨rfl, iv, hiv, hle⟩
        exact ⟨rfl, iv, List.mem_cons_of_mem _ hiv, hle⟩
      · rintro ⟨rfl, iv, hiv, hle⟩
        rcases List.mem_cons.mp hiv with rfl | hiv'
        · exact absurd hle hse
        · exact ⟨rfl, iv, hiv', hle⟩

/-- The interval scan emits at most a singleton. -/
theorem scanIntervals_eq_or (sid t : Int) (ivs : List (Int × Int)) :
    scanIntervals sid t ivs = [] ∨ scanIntervals sid t ivs = [(sid, t)] := by
  induction ivs with
  | nil => exact Or.inl rfl
  | cons hd rest ih =>
    obtain ⟨s, e⟩ := hd
    rw [scanIntervals]
    split
    · exact Or.inr rfl
    · exact ih

/-- Every row emitted for timestamp `t` carries `t` as its second
component. -/
theorem emitAt_snd {t : Int} {m : List (Int × List (Int × Int))} {p : Int × Int}
    (h : p ∈ emitAt t m) : p.2 = t := by
  induction m with
  | nil => simp [emitAt] at h
  | cons hd rest ih =>
    obtain ⟨sid, ivs⟩ := hd
    rw [emitAt, List.mem_append] at h
    rcases h with h | h
    · rw [(mem_scanIntervals.mp h).1]
    · exact ih h

/-- A security absent from the key list receives no row at any
timestamp. -/
theorem not_mem_emitAt_of_not_key {t sid t' : Int}
    {m : List (Int × List (Int × Int))} (h : sid ∉ memKeys m) :
    (sid, t') ∉ emitAt t m := by
  induction m with
  | nil => simp [emitAt]
  | cons hd rest ih =>
    obtain ⟨s, ivs⟩ := hd
    intro hmem
    rw [emitAt, List.mem_append] at hmem
    rcases hmem with hmem | hmem
    · have := (mem_scanIntervals.mp hmem).1
      apply h
      simp only [memKeys, List.map_cons, List.mem_cons]
      left
      exact congrArg Prod.fst this
    · exact ih (fun hk => h (by simp [memKeys] at hk ⊢; exact Or.inr hk)) hmem

/-- Membership in the per-timestamp emission, for a map with distinct
keys: a row `(sid, t')` appears exactly when `t' = t` and some interval
of `sid`'s list contains `t`. -/
theorem mem_emitAt {t sid t' : Int} {m : List (Int × List (Int × Int))}
    (hk : (memKeys m).Nodup) :
    (sid, t') ∈ emitAt t m ↔
      t' = t ∧ ∃ iv ∈ intervalsOf m sid, iv.1 ≤ t ∧ t ≤ iv.2 := by
  induction m with
  | nil => simp [emitAt, intervalsOf]
  | cons hd rest ih =>
    obtain ⟨s, ivs⟩ := hd
    have hk' : (memKeys rest).Nodup := (List.nodup_cons.mp hk).2
    have hs : s ∉ memKeys rest := (List.nodup_cons.mp hk).1
    rw [emitAt, List.mem_append, intervalsOf]
    by_cases hss : s = sid
    · subst hss
      rw [if_pos rfl]
      constructor
      · rintro (h | h)
        · obtain ⟨he, hiv⟩ := mem_scanIntervals.mp h
          exact ⟨congrArg Prod.snd he, hiv⟩
        · exact absurd h (not_mem_emitAt_of_not_key hs)
      · rintro ⟨rfl, hiv⟩
        exact Or.inl (mem_scanIntervals.mpr ⟨rfl, hiv⟩)
    · rw [if_neg hss]
      constructor
      · rintro (h | h)
        · have := (mem_scanIntervals.mp h).1
          exact absurd (congrArg Prod.fst this) (by simpa using fun he => hss he.symm)
        · exact (ih hk').mp h
      · intro h
        exact Or.inr ((ih hk').mpr h)

/-- Membership in the full artifact-`C` row list, as a scan over the
timestamp list. -/
theorem mem_writeC {ts : List Int} {m : List (Int × List (Int × Int))}
    {p : Int × Int} :
    p ∈ writeC ts m ↔ ∃ t0 ∈ ts, p ∈ emitAt t0 m := by
  induction ts with
  | nil => simp [writeC]
  | cons t rest ih =>
    rw [writeC, List.mem_append, ih]
    constructor
    · rintro (h | ⟨t0, ht0, h⟩)
      · exact ⟨t, List.mem_cons_self _ _, h⟩
      · exact ⟨t0, List.mem_cons_of_mem _ ht0, h⟩
    · rintro ⟨t0, ht0, h⟩
      rcases List.mem_cons.mp ht0 with rfl | ht0'
      · exact Or.inl h
      · exact Or.inr ⟨t0, ht0', h⟩

/-- The timestamp of every emitted membership row is drawn from the
timestamp list. -/
theorem writeC_snd_mem {ts : List Int} {m : List (Int × List (Int × Int))}
    {p : Int × Int} (h : p ∈ writeC ts m) : p.2 ∈ ts := by
  rcases mem_writeC.mp h with ⟨t0, ht0, h'⟩
  rw [emitAt_snd h']
  exact ht0

/-- Membership in the artifact-`C` rows for a map with distinct keys. -/
theorem mem_writeC_iff {ts : List Int} {m : List (Int × List (Int × Int))}
    {sid t : Int} (hk : (memKeys m).Nodup) :
    (sid, t) ∈ writeC ts m ↔
      t ∈ ts ∧ ∃ iv ∈ intervalsOf m sid, iv.1 ≤ t ∧ t ≤ iv.2 := by
  rw [mem_writeC]
  constructor
  · rintro ⟨t0, ht0, h⟩
    obtain ⟨rfl, hiv⟩ := (mem_emitAt hk).mp h
    exact ⟨ht0, hiv⟩
  · rintro ⟨ht, hiv⟩
    exact ⟨t, ht, (mem_emitAt hk).mpr ⟨rfl, hiv⟩⟩

/-- Effect of one `setdefault(...).append(...)` on one security's interval
list: the interval lands at the end of `sid`'s list and leaves every
other security untouched. -/
theorem intervalsOf_insertMembership (acc : List (Int × List (Int × Int)))
    (s : Int) (iv : Int × Int) (sid : Int) :
    intervalsOf (insertMembership acc s iv) sid =
      if s = sid then intervalsOf acc sid ++ [iv] else intervalsOf acc sid := by
  induction acc with
  | nil =>
    by_cases h : s = sid <;> simp [insertMembership, intervalsOf, h]
  | cons hd rest ih =>
    obtain ⟨a, ivs⟩ := hd
    by_cases has : a = s <;> by_cases hsid : s = sid
    · simp [insertMembership, intervalsOf, has, hsid, has.trans hsid]
    · have hna : ¬ a = sid := fun h => hsid (has.symm.trans h)
      simp [insertMembership, intervalsOf, has, hsid, hna]
    · subst hsid
      simp [insertMembership, intervalsOf, has, ih]
    · simp [insertMembership, intervalsOf, has, hsid, ih]

/-- Folding the membership rows: one security's interval list is exactly
its rows' intervals in input order (appended after whatever the
accumulator already held), each with a null end resolved to the
sentinel. -/
theorem intervalsOf_foldl (rows : List MemberRow)
    (acc : List (Int × List (Int × Int))) (sid : Int) :
    intervalsOf
        (rows.foldl
          (fun acc r =>
            insertMembership acc r.SecurityId (r.EffectiveFromUtc, resolveEnd r.EffectiveToUtc))
          acc) sid =
      intervalsOf acc sid ++
        (rows.filter fun r => r.SecurityId == sid).map
          (fun r => (r.EffectiveFromUtc, resolveEnd r.EffectiveToUtc)) := by
  induction rows generalizing acc with
  | nil => simp
  | cons r rows ih =>
    rw [List.foldl_cons, ih, intervalsOf_insertMembership, List.filter_cons]
    by_cases hr : r.SecurityId = sid
    · rw [if_pos hr, if_pos (by simpa using hr)]
      simp
    · rw [if_neg hr, if_neg (by simpa using hr)]

/-- The loaded membership map keeps every supplied interval of a
security, in input order, resolving a null end to the maximal sentinel —
overlapping or duplicate intervals included (nothing is rejected at load
time). -/
theorem intervalsOf_build (rows : List MemberRow) (sid : Int) :
    intervalsOf (membership_by_real_sid rows) sid =
      (rows.filter fun r => r.SecurityId == sid).map
        (fun r => (r.EffectiveFromUtc, resolveEnd r.EffectiveToUtc)) := by
  rw [membership_by_real_sid, intervalsOf_foldl]
  rfl

/-- The keys after one insertion: unchanged when the key is present,
extended at the far end otherwise. -/
theorem memKeys_insertMembership (acc : List (Int × List (Int × Int)))
    (s : Int) (iv : Int × Int) :
    memKeys (insertMembership acc s iv) =
      if s ∈ memKeys acc then memKeys acc else memKeys acc ++ [s] := by
  induction acc with
  | nil => simp [insertMembership, memKeys]
  | cons hd rest ih =>
    obtain ⟨a, ivs⟩ := hd
    by_cases has : a = s
    · subst has
      simp [insertMembership, memKeys]
    · have hsa : ¬ s = a := fun h => has h.symm
      simp only [insertMembership, if_neg has, memKeys, List.map_cons]
      simp only [memKeys] at ih
      rw [ih]
      by_cases hmem : s ∈ List.map Prod.fst rest
      · rw [if_pos hmem, if_pos (List.mem_cons_of_mem _ hmem)]
      · rw [if_neg hmem, if_neg (by simp [List.mem_cons, hsa, hmem])]
        simp

/-- Insertion preserves distinctness of the keys. -/
theorem nodup_memKeys_insertMembership {acc : List (Int × List (Int × Int))}
    {s : Int} {iv : Int × Int} (h : (memKeys acc).Nodup) :
    (memKeys (insertMembership acc s iv)).Nodup := by
  rw [memKeys_insertMembership]
  split
  · exact h
  · rename_i hs
    simpa [List.nodup_append, hs] using h

/-- The loaded membership map has one entry per security: its keys are
distinct. -/
theorem nodup_memKeys_build (rows : List MemberRow) :
    (memKeys (membership_by_real_sid rows)).Nodup := by
  rw [membership_by_real_sid]
  generalize hacc : ([] : List (Int × List (Int × Int))) = acc
  have hnd : (memKeys acc).Nodup := by rw [← hacc]; simp [memKeys]
  clear hacc
  induction rows generalizing acc with
  | nil => exact hnd
  | cons r rows ih => exact ih _ (nodup_memKeys_insertMembership hnd)

/-- C3: a membership row `(sid, t)` is emitted to artifact `C` exactly
when `t` is one of the global timestamps and at least one membership row
of security `sid` covers `t` — inclusively on both ends, with a null
effective-to resolved to the maximal sentinel instant `TS_MAX`.  (The
first-matching-interval short-circuit of the scan is what keeps the
emission to a single row; see the duplicate-freedom theorem for C10.) -/
theorem membership_row_iff (rows : List MemberRow) (ts : List Int) (sid t : Int) :
    (sid, t) ∈ writeC ts (membership_by_real_sid rows) ↔
      t ∈ ts ∧ ∃ r ∈ rows, r.SecurityId = sid ∧
        r.EffectiveFromUtc ≤ t ∧ t ≤ resolveEnd r.EffectiveToUtc := by
  rw [mem_writeC_iff (nodup_memKeys_build rows), intervalsOf_build]
  constructor
  · rintro ⟨ht, iv, hiv, hle⟩
    rcases List.mem_map.mp hiv with ⟨r, hr, rfl⟩
    have := List.mem_filter.mp hr
    exact ⟨ht, r, this.1, by simpa using this.2, hle⟩
  · rintro ⟨ht, r, hr, hsid, hle⟩
    exact ⟨ht, (r.EffectiveFromUtc, resolveEnd r.EffectiveToUtc),
      List.mem_map.mpr ⟨r, List.mem_filter.mpr ⟨hr, by simpa using hsid⟩, rfl⟩, hle⟩

/-- C3 witness: with one membership row with an unbounded end, the pair
is emitted for a covered global timestamp. -/
theorem membership_row_iff_witness :
    ((7 : Int), (5 : Int)) ∈ writeC [5] (membership_by_real_sid [⟨7, 0, none⟩]) :=
  (membership_row_iff [⟨7, 0, none⟩] [5] 7 5).mpr
    ⟨by decide, ⟨7, 0, none⟩, by decide, by decide, by decide⟩

/-! ### Claim C10: at most one membership row per pair -/

/-- The global timestamp set stays duplicate-free across the main loop. -/
theorem nodup_all_ts_foldl {session : Session} {fetch : Int → SecData} :
    ∀ (l : List Int) (st : RunState), st.all_ts.Nodup →
      ((l.foldl (processSecurity session fetch) st).all_ts).Nodup := by
  intro l
  induction l with
  | nil => exact fun st h => h
  | cons a l ih =>
    intro st h
    rw [List.foldl_cons]
    refine ih _ ?_
    by_cases h1 : sessionFilter session (fetch a).rawBars = []
    · rw [processSecurity_raw_empty h1]
      exact h
    · by_cases h2 : sessionFilter session (fetch a).flatBars = []
      · rw [processSecurity_flat_empty h1 h2]
        exact h
      · rw [processSecurity_write h1 h2]
        exact nodup_foldl_setInsert h

/-- For a map with distinct keys, one timestamp's emission holds any
given row at most once (the `break` after the first matching interval). -/
theorem count_emitAt_le {t' sid t : Int} {m : List (Int × List (Int × Int))}
    (hk : (memKeys m).Nodup) : ((emitAt t' m).count (sid, t)) ≤ 1 := by
  induction m with
  | nil => simp [emitAt]
  | cons hd rest ih =>
    obtain ⟨a, ivs⟩ := hd
    have hk' : (memKeys rest).Nodup := (List.nodup_cons.mp hk).2
    have hs : a ∉ memKeys rest := (List.nodup_cons.mp hk).1
    rw [emitAt, List.count_append]
    by_cases has : a = sid
    · subst has
      have hz : (emitAt t' rest).count (a, t) = 0 :=
        List.count_eq_zero.mpr (not_mem_emitAt_of_not_key hs)
      rw [hz]
      rcases scanIntervals_eq_or a t' ivs with h | h <;> rw [h]
      · simp
      · exact le_trans (Nat.add_le_add_right (List.count_le_length _ _) 0) (by simp)
    · have hz : (scanIntervals a t' ivs).count (sid, t) = 0 := by
        rcases scanIntervals_eq_or a t' ivs with h | h <;> rw [h]
        · rfl
        · rw [List.count_eq_zero]
          intro hmem
          rcases List.mem_singleton.mp hmem with h'
          exact has (congrArg Prod.fst h').symm
      rw [hz]
      simpa using ih hk'

/-- For distinct timestamps and distinct keys, any given row appears at
most once across the whole artifact-`C` list. -/
theorem count_writeC_le {ts : List Int} {m : List (Int × List (Int × Int))}
    {sid t : Int} (hts : ts.Nodup) (hk : (memKeys m).Nodup) :
    ((writeC ts m).count (sid, t)) ≤ 1 := by
  induction ts with
  | nil => simp [writeC]
  | cons t0 rest ih =>
    have hts' : rest.Nodup := (List.nodup_cons.mp hts).2
    have ht0 : t0 ∉ rest := (List.nodup_cons.mp hts).1
    rw [writeC, List.count_append]
    by_cases h : t0 = t
    · subst h
      have hz : (writeC rest m).count (sid, t0) = 0 := by
        rw [List.count_eq_zero]
        intro hmem
        exact ht0 (writeC_snd_mem hmem)
      rw [hz]
      simpa using count_emitAt_le hk
    · have hz : (emitAt t0 m).count (sid, t) = 0 := by
        rw [List.count_eq_zero]
        intro hmem
        exact h (emitAt_snd hmem).symm
      rw [hz]
      simpa using ih hts'

/-- C10: any successful run emits at most one membership row per
`(security, timestamp)` pair, while the membership loader accepts
overlapping or duplicate intervals unchanged (every supplied interval is
kept; nothing is rejected at load time) — the `break` after the first
matching interval is what prevents duplicate rows. -/
theorem membership_rows_unique :
    (∀ (session : Session) (members : List MemberRow) (subIds : List Int)
        (subMembers : List (Int × Int)) (fetch : Int → SecData)
        (out : Artifacts) (sid t : Int),
        runExport session members subIds subMembers fetch = Except.ok out →
        (out.C).count (sid, t) ≤ 1) ∧
      ∀ (rows : List MemberRow) (sid : Int),
        intervalsOf (membership_by_real_sid rows) sid =
          (rows.filter fun r => r.SecurityId == sid).map
            (fun r => (r.EffectiveFromUtc, resolveEnd r.EffectiveToUtc)) := by
  constructor
  · intro session members subIds subMembers fetch out sid t hok
    rw [(runExport_ok hok).2]
    simp only [exportArtifacts]
    exact count_writeC_le
      (nodup_sortAsc (nodup_all_ts_foldl _ initState (by simp [initState])))
      (nodup_memKeys_build members)
  · exact intervalsOf_build

/-- C10 witness: with duplicated (hence overlapping) membership intervals
for security 7, the run still emits the pair at most once. -/
theorem membership_rows_unique_witness :
    ((artifactsOf (runExport Session.ALL
        [⟨7, 0, some 100⟩, ⟨7, 0, some 100⟩] [] []
        (fun _ => ⟨[⟨0, 120, 100⟩], [⟨0, 120, 100⟩]⟩))).C).count (7, 0) ≤ 1 :=
  membership_rows_unique.1 Session.ALL
    [⟨7, 0, some 100⟩, ⟨7, 0, some 100⟩] [] []
    (fun _ => ⟨[⟨0, 120, 100⟩], [⟨0, 120, 100⟩]⟩) _ 7 0 rfl

/-! ### Claim C7: ordering of the membership artifact -/

/-- The timestamps of the artifact-`C` rows are non-decreasing whenever
the timestamp list is sorted. -/
theorem pairwise_snd_writeC {ts : List Int} {m : List (Int × List (Int × Int))}
    (h : ts.Pairwise (· ≤ ·)) :
    ((writeC ts m).map Prod.snd).Pairwise (· ≤ ·) := by
  induction ts with
  | nil => simp [writeC]
  | cons t0 rest ih =>
    rw [writeC, List.map_append, List.pairwise_append]
    refine ⟨?_, ih (List.pairwise_cons.mp h).2, ?_⟩
    · have hall : ∀ x ∈ (emitAt t0 m).map Prod.snd, x = t0 := by
        intro x hx
        rcases List.mem_map.mp hx with ⟨p, hp, rfl⟩
        exact emitAt_snd hp
      exact List.pairwise_of_forall_mem_list fun a ha b hb => by
        rw [hall a ha, hall b hb]
    · intro a ha b hb
      rcases List.mem_map.mp ha with ⟨p, hp, rfl⟩
      rcases List.mem_map.mp hb with ⟨q, hq, rfl⟩
      rw [emitAt_snd hp]
      exact (List.pairwise_cons.mp h).1 _ (writeC_snd_mem hq)

/-- Restricting the artifact-`C` rows to one timestamp recovers exactly
that timestamp's emission block (when the timestamps are distinct). -/
theorem filter_writeC_eq {ts : List Int} {m : List (Int × List (Int × Int))}
    {t : Int} (hts : ts.Nodup) :
    (writeC ts m).filter (fun r => r.2 == t) =
      if t ∈ ts then emitAt t m else [] := by
  induction ts with
  | nil => simp [writeC]
  | cons t0 rest ih =>
    have hts' : rest.Nodup := (List.nodup_cons.mp hts).2
    have ht0 : t0 ∉ rest := (List.nodup_cons.mp hts).1
    rw [writeC, List.filter_append, ih hts']
    by_cases h : t0 = t
    · subst h
      rw [if_neg ht0, if_pos (List.mem_cons_self _ _)]
      rw [List.filter_eq_self.mpr fun p hp => by simp [emitAt_snd hp]]
      simp
    · rw [List.filter_eq_nil_iff.mpr fun p hp => by simp [emitAt_snd hp, h]]
      rw [List.nil_append]
      by_cases hmem : t ∈ rest
      · rw [if_pos hmem, if_pos (List.mem_cons_of_mem _ hmem)]
      · have hnc : t ∉ t0 :: rest := by
          intro hc
          rcases List.mem_cons.mp hc with rfl | hc'
          · exact h rfl
          · exact hmem hc'
        rw [if_neg hmem, if_neg hnc]

/-- Within one timestamp's emission block, the security ids appear as a
sublist of the membership map's key list, i.e. in insertion order. -/
theorem emitAt_fst_sublist {t : Int} {m : List (Int × List (Int × Int))} :
    ((emitAt t m).map Prod.fst).Sublist (memKeys m) := by
  induction m with
  | nil => simp [emitAt, memKeys]
  | cons hd rest ih =>
    obtain ⟨a, ivs⟩ := hd
    rw [emitAt, List.map_append]
    rcases scanIntervals_eq_or a t ivs with h | h <;> rw [h]
    · simpa [memKeys] using ih.cons a
    · simpa [memKeys] using ih.cons₂ a

/-- C7 counterexample: with membership rows supplied for security 5
before security 3 (both intervals covering the one global timestamp), the
membership artifact holds the row of security 5 before that of security 3
— within a timestamp the rows are NOT in ascending security-id order. -/
theorem membership_artifact_order_counterexample :
    (artifactsOf (runExport Session.ALL [⟨5, 0, some 10⟩, ⟨3, 0, some 10⟩] [] []
        (fun _ => ⟨[⟨0, 120, 100⟩], [⟨0, 120, 100⟩]⟩))).C = [(5, 0), (3, 0)] ∧
      ¬ tsMajorSidMinor [(5, 0), (3, 0)] := by
  refine ⟨rfl, fun h => ?_⟩
  rw [tsMajorSidMinor] at h
  rcases (List.pairwise_cons.mp h).1 (3, 0) (List.mem_cons_self _ _) with h' | ⟨_, h'⟩ <;>
    revert h' <;> decide

/-- C7 amended: the membership artifact is timestamp-major in ascending
timestamp order, and within each timestamp the securities appear in the
membership map's insertion order (the first-appearance order of the
security ids in the membership data), not necessarily in ascending
security-id order. -/
theorem membership_artifact_order :
    ∀ (session : Session) (members : List MemberRow) (subIds : List Int)
      (subMembers : List (Int × Int)) (fetch : Int → SecData) (out : Artifacts),
      runExport session members subIds subMembers fetch = Except.ok out →
      ((out.C.map Prod.snd).Pairwise (· ≤ ·)) ∧
        ∀ t : Int,
          ((out.C.filter (fun r => r.2 == t)).map Prod.fst).Sublist
            (memKeys (membership_by_real_sid members)) := by
  intro session members subIds subMembers fetch out hok
  rw [(runExport_ok hok).2]
  simp only [exportArtifacts]
  constructor
  · exact pairwise_snd_writeC (pairwise_sortAsc _)
  · intro t
    rw [filter_writeC_eq (nodup_sortAsc (nodup_all_ts_foldl _ initState (by simp [initState])))]
    split
    · exact emitAt_fst_sublist
    · simp

/-- C7 witness: the amended ordering facts hold on the concrete
insertion-ordered run with securities 5 and 3. -/
theorem membership_artifact_order_witness :
    (((artifactsOf (runExport Session.ALL [⟨5, 0, some 10⟩, ⟨3, 0, some 10⟩] [] []
        (fun _ => ⟨[⟨0, 120, 100⟩], [⟨0, 120, 100⟩]⟩))).C.map Prod.snd).Pairwise (· ≤ ·)) ∧
      (((artifactsOf (runExport Session.ALL [⟨5, 0, some 10⟩, ⟨3, 0, some 10⟩] [] []
        (fun _ => ⟨[⟨0, 120, 100⟩], [⟨0, 120, 100⟩]⟩))).C.filter
          (fun r => r.2 == (0 : Int))).map Prod.fst).Sublist
        (memKeys (membership_by_real_sid [⟨5, 0, some 10⟩, ⟨3, 0, some 10⟩])) := by
  have h := membership_artifact_order Session.ALL
    [⟨5, 0, some 10⟩, ⟨3, 0, some 10⟩] [] []
    (fun _ => ⟨[⟨0, 120, 100⟩], [⟨0, 120, 100⟩]⟩) _ rfl
  exact ⟨h.1, h.2 0⟩

/-! ### Claim C4: the one-shot raw snapshot -/

/-- An eligible security has both filtered series non-empty. -/
theorem eligibleB_eq_true_iff {session : Session} {fetch : Int → SecData} {sid : Int} :
    eligibleB session fetch sid = true ↔
      (sessionFilter session (fetch sid).rawBars ≠ [] ∧
        sessionFilter session (fetch sid).flatBars ≠ []) := by
  simp [eligibleB, List.isEmpty_iff]

/-- A security is skipped exactly when it is not eligible. -/
theorem eligibleB_eq_false_iff {session : Session} {fetch : Int → SecData} {sid : Int} :
    eligibleB session fetch sid = false ↔
      (sessionFilter session (fetch sid).rawBars = [] ∨
        sessionFilter session (fetch sid).flatBars = []) := by
  rw [Bool.eq_false_iff, Ne, eligibleB_eq_true_iff]
  tauto

/-- A step from a cleared `first_G` flag leaves the snapshot and the flag
alone. -/
theorem process_G_of_false {session : Session} {fetch : Int → SecData}
    {st : RunState} {a : Int} (h : st.first_G = false) :
    (processSecurity session fetch st a).G = st.G ∧
      (processSecurity session fetch st a).first_G = false := by
  by_cases h1 : sessionFilter session (fetch a).rawBars = []
  · rw [processSecurity_raw_empty h1]
    exact ⟨rfl, h⟩
  · by_cases h2 : sessionFilter session (fetch a).flatBars = []
    · rw [processSecurity_flat_empty h1 h2]
      exact ⟨rfl, h⟩
    · rw [processSecurity_write h1 h2]
      exact ⟨by simp [h], rfl⟩

/-- A write step clears the `first_G` flag. -/
theorem process_first_G_write {session : Session} {fetch : Int → SecData}
    {st : RunState} {a : Int}
    (h1 : sessionFilter session (fetch a).rawBars ≠ [])
    (h2 : sessionFilter session (fetch a).flatBars ≠ []) :
    (processSecurity session fetch st a).first_G = false := by
  rw [processSecurity_write h1 h2]

/-- A write step from a set `first_G` flag stores the raw frame in the
snapshot. -/
theorem process_G_write {session : Session} {fetch : Int → SecData}
    {st : RunState} {a : Int}
    (h1 : sessionFilter session (fetch a).rawBars ≠ [])
    (h2 : sessionFilter session (fetch a).flatBars ≠ [])
    (h : st.first_G = true) :
    (processSecurity session fetch st a).G =
      frame a (sessionFilter session (fetch a).rawBars) := by
  rw [processSecurity_write h1 h2]
  simp [h]

/-- A skip step changes neither the snapshot nor the flag. -/
theorem process_G_of_skip {session : Session} {fetch : Int → SecData}
    {st : RunState} {a : Int} (h : eligibleB session fetch a = false) :
    (processSecurity session fetch st a).G = st.G ∧
      (processSecurity session fetch st a).first_G = st.first_G := by
  by_cases h1 : sessionFilter session (fetch a).rawBars = []
  · rw [processSecurity_raw_empty h1]
    exact ⟨rfl, rfl⟩
  · have h2 : sessionFilter session (fetch a).flatBars = [] :=
      (eligibleB_eq_false_iff.mp h).resolve_left h1
    rw [processSecurity_flat_empty h1 h2]
    exact ⟨rfl, rfl⟩

/-- Once the `first_G` flag is cleared, the rest of the loop never
touches the snapshot again. -/
theorem foldl_G_frozen {session : Session} {fetch : Int → SecData} :
    ∀ (l : List Int) (st : RunState), st.first_G = false →
      (l.foldl (processSecurity session fetch) st).G = st.G ∧
        (l.foldl (processSecurity session fetch) st).first_G = false := by
  intro l
  induction l with
  | nil => exact fun st h => ⟨rfl, h⟩
  | cons a l ih =>
    intro st h
    rw [List.foldl_cons]
    obtain ⟨hG, hF⟩ := @process_G_of_false session fetch st a h
    obtain ⟨ihG, ihF⟩ := ih _ hF
    exact ⟨ihG.trans hG, ihF⟩

/-- While the `first_G` flag is still set, the snapshot the loop ends
with is the raw frame of the first eligible security of the remaining
list (or the incoming snapshot when no security is eligible). -/
theorem foldl_G_find {session : Session} {fetch : Int → SecData} :
    ∀ (l : List Int) (st : RunState), st.first_G = true →
      (l.foldl (processSecurity session fetch) st).G =
        (match l.find? (eligibleB session fetch) with
          | some s => frame s (sessionFilter session (fetch s).rawBars)
          | none => st.G) := by
  intro l
  induction l with
  | nil => exact fun st _ => rfl
  | cons a l ih =>
    intro st h
    rw [List.foldl_cons]
    by_cases he : eligibleB session fetch a = true
    · rw [List.find?_cons_of_pos _ he]
      obtain ⟨h1, h2⟩ := eligibleB_eq_true_iff.mp he
      rw [(foldl_G_frozen l _ (process_first_G_write h1 h2)).1]
      exact process_G_write h1 h2 h
    · have he' : eligibleB session fetch a = false := by simpa using he
      rw [List.find?_cons_of_neg _ (by simp [he'])]
      obtain ⟨hG, hF⟩ := @process_G_of_skip session fetch st a he'
      rw [ih _ (hF.trans h)]
      rw [hG]

/-- A skip step leaves the `H` and `I` artifacts alone. -/
theorem process_HI_of_skip {session : Session} {fetch : Int → SecData}
    {st : RunState} {a : Int} (h : eligibleB session fetch a = false) :
    (processSecurity session fetch st a).H = st.H ∧
      (processSecurity session fetch st a).I = st.I := by
  by_cases h1 : sessionFilter session (fetch a).rawBars = []
  · rw [processSecurity_raw_empty h1]
    exact ⟨rfl, rfl⟩
  · have h2 : sessionFilter session (fetch a).flatBars = [] :=
      (eligibleB_eq_false_iff.mp h).resolve_left h1
    rw [processSecurity_flat_empty h1 h2]
    exact ⟨rfl, rfl⟩

/-- A write step appends exactly the raw frame to both `H` and `I`. -/
theorem process_HI_of_write {session : Session} {fetch : Int → SecData}
    {st : RunState} {a : Int} (h : eligibleB session fetch a = true) :
    (processSecurity session fetch st a).H =
        st.H ++ frame a (sessionFilter session (fetch a).rawBars) ∧
      (processSecurity session fetch st a).I =
        st.I ++ frame a (sessionFilter session (fetch a).rawBars) := by
  obtain ⟨h1, h2⟩ := eligibleB_eq_true_iff.mp h
  rw [processSecurity_write h1 h2]
  exact ⟨rfl, rfl⟩

/-- The rows the loop appends to artifacts `H` and `I`: the raw frames of
the eligible securities, in processing order. -/
theorem foldl_HI {session : Session} {fetch : Int → SecData} :
    ∀ (l : List Int) (st : RunState),
      (l.foldl (processSecurity session fetch) st).H =
          st.H ++ newRows session fetch l ∧
        (l.foldl (processSecurity session fetch) st).I =
          st.I ++ newRows session fetch l := by
  intro l
  induction l with
  | nil => simp [newRows]
  | cons a l ih =>
    intro st
    rw [List.foldl_cons, newRows]
    by_cases he : eligibleB session fetch a = true
    · obtain ⟨ihH, ihI⟩ := ih (processSecurity session fetch st a)
      obtain ⟨hH, hI⟩ := @process_HI_of_write session fetch st a he
      rw [ihH, ihI, hH, hI, if_pos he]
      simp
    · have he' : eligibleB session fetch a = false := by simpa using he
      obtain ⟨ihH, ihI⟩ := ih (processSecurity session fetch st a)
      obtain ⟨hH, hI⟩ := @process_HI_of_skip session fetch st a he'
      rw [ihH, ihI, hH, hI, if_neg (by simp [he'])]
      simp

/-- Every row of a frame carries the frame's security id. -/
theorem frame_fst {s : Int} {rows : List Bar} {p : Int × Int × Int}
    (hp : p ∈ frame s rows) : p.1 = s := by
  rcases List.mem_map.mp hp with ⟨b, _, rfl⟩
  rfl

/-- Filtering a frame by its own security id keeps everything. -/
theorem frame_filter_self {s : Int} {rows : List Bar} :
    (frame s rows).filter (fun r => r.1 == s) = frame s rows :=
  List.filter_eq_self.mpr fun p hp => by simp [frame_fst hp]

/-- Filtering a frame by another security id drops everything. -/
theorem frame_filter_ne {s a : Int} {rows : List Bar} (h : s ≠ a) :
    (frame s rows).filter (fun r => r.1 == a) = [] :=
  List.filter_eq_nil_iff.mpr fun p hp => by simp [frame_fst hp, h]

/-- A security that never occurs in the processed list owns none of the
appended raw rows. -/
theorem newRows_filter_not_mem {session : Session} {fetch : Int → SecData} :
    ∀ {l : List Int} {a : Int}, a ∉ l →
      (newRows session fetch l).filter (fun r => r.1 == a) = [] := by
  intro l
  induction l with
  | nil => simp [newRows]
  | cons s l ih =>
    intro a ha
    rw [newRows, List.filter_append, ih (fun h => ha (List.mem_cons_of_mem _ h))]
    by_cases he : eligibleB session fetch s = true
    · rw [if_pos he,
        frame_filter_ne (fun h => ha (by rw [← h]; exact List.mem_cons_self _ _))]
      rfl
    · rw [if_neg he]
      rfl

/-- The appended raw rows owned by an eligible security of a
duplicate-free processed list are exactly its raw frame. -/
theorem newRows_filter_eq {session : Session} {fetch : Int → SecData} :
    ∀ {l : List Int} {s0 : Int}, l.Nodup → s0 ∈ l →
      eligibleB session fetch s0 = true →
      (newRows session fetch l).filter (fun r => r.1 == s0) =
        frame s0 (sessionFilter session (fetch s0).rawBars) := by
  intro l
  induction l with
  | nil => simp
  | cons a l ih =>
    intro s0 hnd hmem helig
    rw [newRows, List.filter_append]
    rcases List.mem_cons.mp hmem with rfl | hmem'
    · rw [if_pos helig, frame_filter_self,
        newRows_filter_not_mem (List.nodup_cons.mp hnd).1]
      simp
    · have hne : ¬ a = s0 := fun h => (List.nodup_cons.mp hnd).1 (h ▸ hmem')
      rw [ih (List.nodup_cons.mp hnd).2 hmem' helig]
      by_cases he : eligibleB session fetch a = true
      · rw [if_pos he, frame_filter_ne hne]
        rfl
      · rw [if_neg he]
        rfl

/-- C4 amended: the one-time raw snapshot `G` goes to exactly the first
security in processing order whose session-filtered raw AND flat series
are both non-empty (i.e. the first security that is not skipped) — not
merely the first with non-empty raw data; at that point all three raw
destinations agree: the rows of `H` and of `I` owned by that security
are exactly the snapshot.  When every security is skipped the snapshot
stays empty. -/
theorem snapshot_first_eligible :
    ∀ (session : Session) (members : List MemberRow) (subIds : List Int)
      (subMembers : List (Int × Int)) (fetch : Int → SecData) (out : Artifacts),
      runExport session members subIds subMembers fetch = Except.ok out →
      (∀ s0 : Int, (universeOf members).find? (eligibleB session fetch) = some s0 →
          out.G = frame s0 (sessionFilter session (fetch s0).rawBars) ∧
            out.H.filter (fun r => r.1 == s0) = out.G ∧
            out.I.filter (fun r => r.1 == s0) = out.G) ∧
        ((universeOf members).find? (eligibleB session fetch) = none →
          out.G = []) := by
  intro session members subIds subMembers fetch out hok
  rw [(runExport_ok hok).2]
  simp only [exportArtifacts]
  constructor
  · intro s0 hfind
    have hG := @foldl_G_find session fetch (universeOf members) initState rfl
    rw [hfind] at hG
    have hmem : s0 ∈ universeOf members := List.mem_of_find?_eq_some hfind
    have helig : eligibleB session fetch s0 = true := List.find?_some hfind
    have hH := (@foldl_HI session fetch (universeOf members) initState).1
    have hI := (@foldl_HI session fetch (universeOf members) initState).2
    refine ⟨hG, ?_, ?_⟩
    · rw [hH, hG]
      simp only [initState, List.nil_append]
      exact newRows_filter_eq (nodup_universeOf members) hmem helig
    · rw [hI, hG]
      simp only [initState, List.nil_append]
      exact newRows_filter_eq (nodup_universeOf members) hmem helig
  · intro hfind
    have hG := @foldl_G_find session fetch (universeOf members) initState rfl
    rw [hfind] at hG
    exact hG

/-- C4 counterexample: security 1 is the first with non-empty raw data,
yet (because its flat series is empty) the one-shot snapshot holds
security 2's raw rows — the claim's trigger condition fails on the
code. -/
theorem snapshot_first_eligible_counterexample :
    sessionFilter Session.ALL
        ((fun sid => if sid = (1 : Int) then (⟨[⟨0, 120, 100⟩], []⟩ : SecData)
          else ⟨[⟨0, 120, 100⟩], [⟨0, 120, 100⟩]⟩) 1).rawBars ≠ [] ∧
      (artifactsOf (runExport Session.ALL [⟨1, 0, some 10⟩, ⟨2, 0, some 10⟩] [] []
        (fun sid => if sid = (1 : Int) then (⟨[⟨0, 120, 100⟩], []⟩ : SecData)
          else ⟨[⟨0, 120, 100⟩], [⟨0, 120, 100⟩]⟩))).G = [(2, 0, 100)] := by
  constructor
  · decide
  · decide

/-- C4 witness: on the same two-security input the snapshot equals
security 2's raw frame and agrees with the security-2 rows of `H` and
`I`. -/
theorem snapshot_first_eligible_witness :
    (artifactsOf (runExport Session.ALL [⟨1, 0, some 10⟩, ⟨2, 0, some 10⟩] [] []
        (fun sid => if sid = (1 : Int) then (⟨[⟨0, 120, 100⟩], []⟩ : SecData)
          else ⟨[⟨0, 120, 100⟩], [⟨0, 120, 100⟩]⟩))).G =
        frame 2 (sessionFilter Session.ALL
          ((fun sid => if sid = (1 : Int) then (⟨[⟨0, 120, 100⟩], []⟩ : SecData)
            else ⟨[⟨0, 120, 100⟩], [⟨0, 120, 100⟩]⟩) 2).rawBars) ∧
      ((artifactsOf (runExport Session.ALL [⟨1, 0, some 10⟩, ⟨2, 0, some 10⟩] [] []
        (fun sid => if sid = (1 : Int) then (⟨[⟨0, 120, 100⟩], []⟩ : SecData)
          else ⟨[⟨0, 120, 100⟩], [⟨0, 120, 100⟩]⟩))).H.filter
        (fun r => r.1 == (2 : Int))) =
        (artifactsOf (runExport Session.ALL [⟨1, 0, some 10⟩, ⟨2, 0, some 10⟩] [] []
        (fun sid => if sid = (1 : Int) then (⟨[⟨0, 120, 100⟩], []⟩ : SecData)
          else ⟨[⟨0, 120, 100⟩], [⟨0, 120, 100⟩]⟩))).G := by
  have h := snapshot_first_eligible Session.ALL [⟨1, 0, some 10⟩, ⟨2, 0, some 10⟩] [] []
    (fun sid => if sid = (1 : Int) then (⟨[⟨0, 120, 100⟩], []⟩ : SecData)
      else ⟨[⟨0, 120, 100⟩], [⟨0, 120, 100⟩]⟩) _ rfl
  obtain ⟨hG, hH, _⟩ := h.1 2 (by decide)
  exact ⟨hG, hH⟩
